import Mathlib

/-!
Verification development for the playback-synchronization core of the
musical-basics educational-app prototype.

The embedding is shallow: every definition below is translated from a
source file of the repository.  JavaScript numbers are modelled as exact
rationals (`ℚ`); the two hardware clocks (`audioContext.currentTime` and
`performance.now()`) are passed to each operation as explicit arguments
`ctxNow` / `perfNow`; listener notifications are counted rather than
dispatched.  Fallible engine triggers are recorded as events in a list.

Sources embedded here:
  * src/lib/types.ts                 (NoteEvent)
  * src/lib/engine/PlaybackManager.ts (PMState, getTime, seek, play,
                                       setPlaybackRate, getVisualTime)
  * src/lib/engine/WaterfallRenderer.ts renderFrame's culling
                                       (lowerBound, renderScan, renderSelect)
  * src/unnamed/part_005              (AudioSynth: schedLoop, scheduleNotes,
                                       silence, stopAll)
  * src/unnamed/part_000              (NotePool: acquire, releaseAll)
  * src/lib/midi/parser.ts            (parseMidiFile and its flattening)
-/

namespace SynthUI

/-- A normalized note event, src/lib/types.ts.  `id` is the synthetic
string key the parser assigns; times are absolute seconds. -/
structure NoteEvent where
  id : String
  pitch : ℤ
  startTimeSec : ℚ
  endTimeSec : ℚ
  durationSec : ℚ
  velocity : ℤ
  trackId : ℤ
deriving DecidableEq, Inhabited

/-- State of the PlaybackManager master clock
(src/lib/engine/PlaybackManager.ts).  `hwPresent` models
`this.audioContext !== null`; the clock reading itself is an argument of
each operation. -/
structure PMState where
  hwPresent : Bool
  isPlaying : Bool
  songPosition : ℚ
  playStartedAtCtx : ℚ
  playbackRate : ℚ
  visualTime : ℚ
  lastVisualTick : ℚ
  duration : ℚ
deriving DecidableEq

/-- Result of a clock read: the value returned, the possibly mutated
state, and how many notifyListeners invocations the read fired. -/
structure TimeRead where
  value : ℚ
  state : PMState
  notifs : ℕ
deriving DecidableEq

/-- PlaybackManager.getTime.  The duration branch of the source also runs
notifyListeners once; the getTime re-read inside that notification
happens on the already-stopped state, where it is the identity and fires
nothing further, so the branch carries exactly one notification. -/
def getTime (s : PMState) (ctxNow : ℚ) : TimeRead :=
  if !s.isPlaying || !s.hwPresent then ⟨s.songPosition, s, 0⟩
  else
    let elapsed := (ctxNow - s.playStartedAtCtx) * s.playbackRate
    let t := s.songPosition + elapsed
    if s.duration ≤ t then
      ⟨s.duration, { s with songPosition := s.duration, isPlaying := false }, 1⟩
    else ⟨t, s, 0⟩

/-- PlaybackManager.notifyListeners: reads getTime on the current state
(the read may itself complete the terminal transition and notify) and
then fires the listener set once. -/
def notifyL (s : PMState) (ctxNow : ℚ) : PMState × ℕ :=
  ((getTime s ctxNow).state, 1 + (getTime s ctxNow).notifs)

/-- PlaybackManager.seek: clamp to [0, duration], re-anchor the play
reference when playing with a live context, sync the visual clock,
notify. -/
def seek (s : PMState) (timeSec ctxNow perfNow : ℚ) : PMState × ℕ :=
  let pos := max 0 (min timeSec s.duration)
  let s₁ := { s with songPosition := pos }
  let s₂ :=
    if s₁.isPlaying && s₁.hwPresent then
      { s₁ with playStartedAtCtx := ctxNow, lastVisualTick := perfNow }
    else s₁
  notifyL { s₂ with visualTime := s₂.songPosition } ctxNow

/-- PlaybackManager.play: no-op while already playing; otherwise ensure
the context exists, anchor the reference tick, sync the visual clock,
mark playing and notify. -/
def play (s : PMState) (ctxNow perfNow : ℚ) : PMState × ℕ :=
  if s.isPlaying then (s, 0)
  else
    notifyL
      { s with hwPresent := true, playStartedAtCtx := ctxNow,
               lastVisualTick := perfNow, visualTime := s.songPosition,
               isPlaying := true } ctxNow

/-- PlaybackManager.setPlaybackRate: while playing, capture the current
position at the old rate (via getTime, which may complete the terminal
transition), re-anchor, sync the visual clock; then apply the rate. -/
def setPlaybackRate (s : PMState) (rate ctxNow perfNow : ℚ) : PMState × ℕ :=
  if s.isPlaying then
    let rd := getTime s ctxNow
    let s₁ := { rd.state with songPosition := rd.value }
    let s₂ := if s₁.hwPresent then { s₁ with playStartedAtCtx := ctxNow } else s₁
    ({ s₂ with lastVisualTick := perfNow, visualTime := s₁.songPosition,
               playbackRate := rate }, rd.notifs)
  else ({ s with playbackRate := rate }, 0)

/-- PlaybackManager.getVisualTime: the smoothed clock.  Advances the
stored visual time by the wall-clock delta, rubber-bands it to the
audio-derived time (snap beyond 50 ms of drift, else absorb 1% of the
drift), stores it back unclamped, and clamps only the returned value to
the duration ceiling.  The source fires no notification on this path. -/
def getVisualTime (s : PMState) (ctxNow perfNow : ℚ) : TimeRead :=
  if !s.isPlaying || !s.hwPresent then ⟨s.songPosition, s, 0⟩
  else
    let trueTime := s.songPosition + (ctxNow - s.playStartedAtCtx) * s.playbackRate
    let deltaSec := (perfNow - s.lastVisualTick) / 1000
    let v₁ := s.visualTime + deltaSec * s.playbackRate
    let drift := trueTime - v₁
    let v₂ := if (1 : ℚ)/20 < abs drift then trueTime else v₁ + drift * (1/100)
    let s' := { s with lastVisualTick := perfNow, visualTime := v₂ }
    if s.duration ≤ v₂ then ⟨s.duration, s', 0⟩ else ⟨v₂, s', 0⟩

/-- Binary-search loop shared by WaterfallRenderer.renderFrame,
AudioSynth.scheduleNotes and findFirstNoteIndex (src/lib/midi/parser.ts):
narrow [lo, hi) to the first index whose startTimeSec is not below
`time`.  The while loop terminates because hi - lo strictly decreases;
it is realized structurally with a step counter initialized to the
interval length, which the loop can never exhaust. -/
def lbGo (notes : List NoteEvent) (time : ℚ) : ℕ → ℕ → ℕ → ℕ
  | 0, lo, _ => lo
  | fuel + 1, lo, hi =>
    if lo < hi then
      let mid := (lo + hi) / 2
      if (notes.getD mid default).startTimeSec < time then
        lbGo notes time fuel (mid + 1) hi
      else
        lbGo notes time fuel lo mid
    else lo

/-- Index of the first note with startTimeSec at or after `time`. -/
def lowerBound (notes : List NoteEvent) (time : ℚ) : ℕ :=
  lbGo notes time notes.length 0 notes.length

/-- The forward scan of renderFrame (src/lib/engine/WaterfallRenderer.ts,
lines 263-271): stop at the first note past the lookahead window (safe
for a start-sorted list), skip notes that ended before the look-behind
window, keep the rest.  The later per-candidate filters (track muting,
key-mapping validity, off-screen cull, pool exhaustion) act on this
selection and are bracketed out here. -/
def renderScan (wStart wEnd : ℚ) : List NoteEvent → List NoteEvent
  | [] => []
  | note :: rest =>
    if wEnd < note.startTimeSec then []
    else if note.endTimeSec < wStart then renderScan wStart wEnd rest
    else note :: renderScan wStart wEnd rest

/-- The window selection of renderFrame: window
[time - 0.5, time + canvasHeight / pixelsPerSecond], binary search from
max(0, windowStart - 10) to catch long-held notes, then the forward
scan. -/
def renderSelect (notes : List NoteEvent) (time canvasH pps : ℚ) : List NoteEvent :=
  let wStart := time - 1/2
  let wEnd := time + canvasH / pps
  let searchTime := max 0 (wStart - 10)
  renderScan wStart wEnd (notes.drop (lowerBound notes searchTime))

/-- The brute-force visible set the specification names: notes with
startTimeSec ≤ T + L and endTimeSec ≥ T - 0.5. -/
def bruteVisible (notes : List NoteEvent) (time canvasH pps : ℚ) : List NoteEvent :=
  notes.filter fun n =>
    decide (n.startTimeSec ≤ time + canvasH / pps ∧ time - 1/2 ≤ n.endTimeSec)

/-- One note-on handed to the opaque sample engine
(soundfont.start in src/unnamed/part_005). -/
structure TriggerEvent where
  id : String
  pitch : ℤ
  velocity : ℤ
  time : ℚ
  duration : ℚ
deriving DecidableEq

/-- State of the AudioSynth scheduler (src/unnamed/part_005).  `sf`
models `this.soundfont !== null`; `scheduled` is the dedup set of
already-scheduled note ids (insertion-ordered); `gainValue` the master
gain's target value, `gainRampEnd` when its last ramp lands;
`stopsSent` counts soundfont.stop() calls issued to the engine. -/
structure SynthState where
  sf : Bool
  loaded : Bool
  volume : ℚ
  gainValue : ℚ
  gainRampEnd : ℚ
  scheduled : List String
  stopsSent : ℕ
deriving DecidableEq

/-- Result of AudioSynth.scheduleNotes: the new state, the note-ons
handed to the engine, and the count the method returns. -/
structure ScheduleResult where
  state : SynthState
  triggers : List TriggerEvent
  count : ℕ
deriving DecidableEq

/-- The scheduling loop of AudioSynth.scheduleNotes
(src/unnamed/part_005, lines 121-150), started at the binary-search
index: stop once the projected context time passes the 4 s lookahead,
skip muted tracks, ids already in the dedup set, notes already ended,
and notes whose attack is more than 30 ms in the past; otherwise trigger
with rate-scaled duration (50 ms minimum) and record the id. -/
def schedLoop (songStartCtxTime songOffset rate ctxNow : ℚ) (muted : List ℤ) :
    List NoteEvent → List String → List TriggerEvent × List String × ℕ
  | [], ded => ([], ded, 0)
  | note :: more, ded =>
    let ctxTime := songStartCtxTime + (note.startTimeSec - songOffset) / rate
    if ctxNow + 4 < ctxTime then ([], ded, 0)
    else if note.trackId ∈ muted then
      schedLoop songStartCtxTime songOffset rate ctxNow muted more ded
    else if note.id ∈ ded then
      schedLoop songStartCtxTime songOffset rate ctxNow muted more ded
    else if note.endTimeSec ≤ songOffset then
      schedLoop songStartCtxTime songOffset rate ctxNow muted more ded
    else if ctxTime < ctxNow - 3/100 then
      schedLoop songStartCtxTime songOffset rate ctxNow muted more ded
    else
      let ev : TriggerEvent :=
        ⟨note.id, note.pitch, note.velocity, ctxTime,
         max (note.durationSec / rate) (1/20)⟩
      let r := schedLoop songStartCtxTime songOffset rate ctxNow muted more
                 (note.id :: ded)
      (ev :: r.1, r.2.1, r.2.2 + 1)

/-- AudioSynth.scheduleNotes (src/unnamed/part_005, lines 91-156):
no-op unless the soundfont is loaded; restore the master gain, binary
search to the first note at or after the song offset, run the loop. -/
def scheduleNotes (s : SynthState) (notes : List NoteEvent)
    (songStartCtxTime songOffset rate ctxNow : ℚ) (muted : List ℤ) :
    ScheduleResult :=
  if !s.sf || !s.loaded then ⟨s, [], 0⟩
  else
    let r := schedLoop songStartCtxTime songOffset rate ctxNow muted
               (notes.drop (lowerBound notes songOffset)) s.scheduled
    ⟨{ s with gainValue := s.volume / 127, scheduled := r.2.1 }, r.1, r.2.2⟩

/-- AudioSynth.silence (src/unnamed/part_005, lines 162-177): ramp the
master gain to zero over 20 ms and tell the engine to stop sounding
notes; the dedup set is untouched. -/
def silence (s : SynthState) (ctxNow : ℚ) : SynthState :=
  { s with gainValue := 0, gainRampEnd := ctxNow + 1/50,
           stopsSent := s.stopsSent + (if s.sf then 1 else 0) }

/-- AudioSynth.stopAll (src/unnamed/part_005, lines 183-186): silence,
then clear the dedup set. -/
def stopAll (s : SynthState) (ctxNow : ℚ) : SynthState :=
  { silence s ctxNow with scheduled := [] }

/-- State of the NotePool (src/unnamed/part_000).  The pool array is
fixed at init: slot i holds the i-th pre-allocated sprite, so a sprite
is identified by its index; `visible` carries each slot's visibility
flag. -/
structure PoolState where
  poolSize : ℕ
  activeCount : ℕ
  visible : List Bool
deriving DecidableEq

/-- NotePool init: `poolSize` pre-allocated sprites, all hidden, none
active. -/
def initPool (n : ℕ) : PoolState := ⟨n, 0, List.replicate n false⟩

/-- NotePool.acquire (src/unnamed/part_000, lines 99-106): null when the
pool is exhausted, else hand out slot `activeCount` and advance the
cursor. -/
def acquire (s : PoolState) : Option ℕ × PoolState :=
  if s.poolSize ≤ s.activeCount then (none, s)
  else (some s.activeCount,
        { s with visible := s.visible.set s.activeCount true,
                 activeCount := s.activeCount + 1 })

/-- Hide the first k slots (the loop body of releaseAll). -/
def hideBelow : List Bool → ℕ → List Bool
  | l, 0 => l
  | [], _ + 1 => []
  | _ :: t, k + 1 => false :: hideBelow t k

/-- NotePool.releaseAll (src/unnamed/part_000, lines 108-113): hide the
active slots and reset the cursor. -/
def releaseAll (s : PoolState) : PoolState :=
  { s with visible := hideBelow s.visible s.activeCount, activeCount := 0 }

/-- A call against the pool's public surface. -/
inductive PoolOp where
  | acq : PoolOp
  | rel : PoolOp
deriving DecidableEq

/-- Run a sequence of pool calls, discarding acquire results. -/
def runPool (s : PoolState) : List PoolOp → PoolState
  | [] => s
  | PoolOp.acq :: ops => runPool (acquire s).2 ops
  | PoolOp.rel :: ops => runPool (releaseAll s) ops

/-- The results of k successive acquires from a state. -/
def acquireResults (s : PoolState) : ℕ → List (Option ℕ)
  | 0 => []
  | k + 1 => (acquire s).1 :: acquireResults (acquire s).2 k

/-- A decoded note as @tonejs/midi hands it to parseMidiFile: absolute
seconds, pitch, velocity normalized to [0, 1]. -/
structure DecodedNote where
  time : ℚ
  duration : ℚ
  midi : ℤ
  velocity : ℚ
deriving DecidableEq

/-- The id string the parser gives the note with counter value i. -/
def encId (i : ℕ) : String := "n-" ++ toString i

/-- One NoteEvent as built inside parseMidiFile's track loop
(src/lib/midi/parser.ts, lines 31-40): counter-keyed id, end = start +
duration, velocity denormalized by rounding velocity * 127. -/
def mkNote (ctr : ℕ) (trackIdx : ℤ) (d : DecodedNote) : NoteEvent :=
  { id := encId ctr
    pitch := d.midi
    startTimeSec := d.time
    endTimeSec := d.time + d.duration
    durationSec := d.duration
    velocity := round (d.velocity * 127)
    trackId := trackIdx }

/-- Flatten one track, threading the id counter. -/
def flattenTrack (ctr : ℕ) (trackIdx : ℤ) : List DecodedNote → List NoteEvent
  | [] => []
  | d :: rest => mkNote ctr trackIdx d :: flattenTrack (ctr + 1) trackIdx rest

/-- Flatten all tracks in order, threading the id counter across
tracks. -/
def flattenTracks (ctr : ℕ) (trackIdx : ℤ) :
    List (List DecodedNote) → List NoteEvent
  | [] => []
  | tr :: rest =>
    flattenTrack ctr trackIdx tr ++
      flattenTracks (ctr + tr.length) (trackIdx + 1) rest

/-- The order parseMidiFile sorts by: ascending startTimeSec. -/
def noteLe (a b : NoteEvent) : Prop := a.startTimeSec ≤ b.startTimeSec

instance : DecidableRel noteLe :=
  fun a b => inferInstanceAs (Decidable (a.startTimeSec ≤ b.startTimeSec))

instance : IsTotal NoteEvent noteLe :=
  ⟨fun a b => le_total a.startTimeSec b.startTimeSec⟩

instance : IsTrans NoteEvent noteLe := ⟨fun _ _ _ => le_trans⟩

/-- The slice of ParsedMidi the claims are about (src/lib/types.ts);
name cleaning and the informational tempo list are omitted. -/
structure ParsedMidi where
  durationSec : ℚ
  notes : List NoteEvent
  trackCount : ℕ
deriving DecidableEq

/-- The duration computation of parseMidiFile: Math.max over the note
end times behind the source's nonempty guard, 0 for an empty list. -/
def maxEnd (notes : List NoteEvent) : ℚ :=
  match notes.map NoteEvent.endTimeSec with
  | [] => 0
  | e :: es => es.foldl max e

/-- parseMidiFile (src/lib/midi/parser.ts, lines 13-66): flatten the
tracks, sort by startTimeSec (JavaScript's stable comparator sort is
modelled by insertion sort on the induced order), duration = max
endTimeSec (0 when there is no note). -/
def parseMidiFile (tracks : List (List DecodedNote)) : ParsedMidi :=
  let notes := List.insertionSort noteLe (flattenTracks 0 0 tracks)
  ⟨maxEnd notes, notes, tracks.length⟩

/-- A playing clock state used to instantiate the claim theorems. -/
def pmSample : PMState :=
  { hwPresent := true, isPlaying := true, songPosition := 0,
    playStartedAtCtx := 0, playbackRate := 1, visualTime := 0,
    lastVisualTick := 0, duration := 10 }

/-- A paused clock whose song position exceeds its duration ceiling, as
left behind by shrinking the duration under the current position. -/
def pmShrunk : PMState :=
  { hwPresent := false, isPlaying := false, songPosition := 2,
    playStartedAtCtx := 0, playbackRate := 1, visualTime := 0,
    lastVisualTick := 0, duration := 1 }

/-- A note held for 20 seconds, longer than renderFrame's 10 s
look-back. -/
def longNote : NoteEvent :=
  { id := encId 0, pitch := 60, startTimeSec := 0, endTimeSec := 20,
    durationSec := 20, velocity := 100, trackId := 0 }

/-- A read on a non-playing clock, or one whose context does not exist
yet, returns the stored song position and changes nothing. -/
theorem getTime_base (s : PMState) (c : ℚ)
    (h : s.isPlaying = false ∨ s.hwPresent = false) :
    getTime s c = ⟨s.songPosition, s, 0⟩ := by
  rcases h with h | h <;> simp [getTime, h]

/-- A read on a playing clock with a live context either returns the
advanced raw time or completes the terminal transition. -/
theorem getTime_play (s : PMState) (c : ℚ) (hp : s.isPlaying = true)
    (hw : s.hwPresent = true) :
    getTime s c =
      if s.duration ≤ s.songPosition + (c - s.playStartedAtCtx) * s.playbackRate
      then ⟨s.duration, { s with songPosition := s.duration, isPlaying := false }, 1⟩
      else ⟨s.songPosition + (c - s.playStartedAtCtx) * s.playbackRate, s, 0⟩ := by
  simp [getTime, hp, hw]

/-- C3: for every t and every clock state — Stopped, Paused or Playing —
with a nonnegative duration ceiling, seek(t) followed by
getAuthoritativeTime() at the same hardware instant returns
clamp(t, 0, duration); in exact rational arithmetic the floating
tolerance is zero. -/
theorem seek_then_getTime_clamps (s : PMState) (t ctxNow perfNow : ℚ)
    (hd : 0 ≤ s.duration) :
    (getTime (seek s t ctxNow perfNow).1 ctxNow).value
      = max 0 (min t s.duration) := by
  have hle : max 0 (min t s.duration) ≤ s.duration :=
    max_le hd (min_le_right _ _)
  by_cases hp : s.isPlaying
  · by_cases hw : s.hwPresent
    · rcases le_or_lt s.duration (max 0 (min t s.duration)) with h | h
      · have heq : max 0 (min t s.duration) = s.duration := le_antisymm hle h
        simp [seek, notifyL, getTime, hp, hw, heq]
      · simp [seek, notifyL, getTime, hp, hw, not_le.2 h]
    · have hw' : s.hwPresent = false := by simpa using hw
      simp [seek, notifyL, getTime, hp, hw']
  · have hp' : s.isPlaying = false := by simpa using hp
    simp [seek, notifyL, getTime, hp']

/-- Witness for C3 at a concrete playing state. -/
theorem seek_then_getTime_clamps_witness :
    (0 : ℚ) ≤ pmSample.duration ∧
    (getTime (seek pmSample 3 5 7).1 5).value = max 0 (min 3 pmSample.duration) :=
  ⟨by decide, seek_then_getTime_clamps pmSample 3 5 7 (by decide)⟩

/-- C4: while Playing with a live context and positive rate, under a
non-decreasing hardware clock, consecutive authoritative reads are
non-decreasing and capped by the duration; the first read that reaches
the ceiling returns the duration, transitions the state to Stopped and
fires exactly one notification, and on the stopped state every later
read returns the duration, silently and without further change; a read
short of the ceiling changes nothing and fires nothing. -/
theorem getTime_monotone_until_duration (s : PMState) (c₁ c₂ : ℚ)
    (hp : s.isPlaying = true) (hw : s.hwPresent = true)
    (hr : 0 < s.playbackRate) (hc : c₁ ≤ c₂) :
    (getTime s c₁).value ≤ (getTime (getTime s c₁).state c₂).value ∧
    (getTime s c₁).value ≤ s.duration ∧
    (getTime (getTime s c₁).state c₂).value ≤ s.duration ∧
    (s.duration ≤ s.songPosition + (c₁ - s.playStartedAtCtx) * s.playbackRate →
      (getTime s c₁).value = s.duration ∧
      (getTime s c₁).state.isPlaying = false ∧
      (getTime s c₁).notifs = 1 ∧
      ∀ c', getTime (getTime s c₁).state c' = ⟨s.duration, (getTime s c₁).state, 0⟩) ∧
    (s.songPosition + (c₁ - s.playStartedAtCtx) * s.playbackRate < s.duration →
      (getTime s c₁).notifs = 0 ∧ (getTime s c₁).state = s) := by
  have hmono : s.songPosition + (c₁ - s.playStartedAtCtx) * s.playbackRate
      ≤ s.songPosition + (c₂ - s.playStartedAtCtx) * s.playbackRate := by
    have := mul_le_mul_of_nonneg_right
      (sub_le_sub_right hc s.playStartedAtCtx) hr.le
    linarith
  rcases le_or_lt s.duration
      (s.songPosition + (c₁ - s.playStartedAtCtx) * s.playbackRate) with h | h
  · rw [getTime_play s c₁ hp hw, if_pos h]
    refine ⟨?_, le_refl _, ?_, ?_, ?_⟩
    · simp [getTime]
    · simp [getTime]
    · exact fun _ => ⟨rfl, rfl, rfl, fun c' => by simp [getTime]⟩
    · exact fun hlt => absurd h (not_le.2 hlt)
  · rw [getTime_play s c₁ hp hw, if_neg (not_le.2 h)]
    rcases le_or_lt s.duration
        (s.songPosition + (c₂ - s.playStartedAtCtx) * s.playbackRate) with h₂ | h₂
    · rw [getTime_play s c₂ hp hw, if_pos h₂]
      exact ⟨h.le, h.le, le_refl _,
        fun hge => absurd hge (not_le.2 h), fun _ => ⟨rfl, rfl⟩⟩
    · rw [getTime_play s c₂ hp hw, if_neg (not_le.2 h₂)]
      exact ⟨hmono, h.le, h₂.le,
        fun hge => absurd hge (not_le.2 h), fun _ => ⟨rfl, rfl⟩⟩

/-- Witness for C4 at a concrete playing state and two read instants. -/
theorem getTime_monotone_until_duration_witness :
    pmSample.isPlaying = true ∧
    (getTime pmSample 2).value ≤ (getTime (getTime pmSample 2).state 3).value :=
  ⟨rfl, (getTime_monotone_until_duration pmSample 2 3 rfl rfl
          (by decide) (by decide)).1⟩

/-- C6: while Playing with a live context, setPlaybackRate(r) with r > 0
preserves the authoritative time at the call instant, and every later
read advances at the new rate from that value, capped at the
duration. -/
theorem setPlaybackRate_continuous (s : PMState) (r c p : ℚ)
    (hp : s.isPlaying = true) (hw : s.hwPresent = true) (hr : 0 < r) :
    (getTime (setPlaybackRate s r c p).1 c).value = (getTime s c).value ∧
    ∀ c', c ≤ c' →
      (getTime (setPlaybackRate s r c p).1 c').value
        = min s.duration ((getTime s c).value + (c' - c) * r) := by
  rcases le_or_lt s.duration
      (s.songPosition + (c - s.playStartedAtCtx) * s.playbackRate) with h | h
  · have hsel : (setPlaybackRate s r c p).1 =
        { s with songPosition := s.duration, isPlaying := false,
                 playStartedAtCtx := c, lastVisualTick := p,
                 visualTime := s.duration, playbackRate := r } := by
      simp [setPlaybackRate, hp, getTime_play s c hp hw, if_pos h, hw]
    rw [hsel, getTime_play s c hp hw, if_pos h]
    constructor
    · simp [getTime]
    · intro c' hc'
      have hnn : 0 ≤ (c' - c) * r := mul_nonneg (sub_nonneg.2 hc') hr.le
      have hmin : min s.duration (s.duration + (c' - c) * r) = s.duration :=
        min_eq_left (by linarith)
      simp [getTime, hmin]
  · have hsel : (setPlaybackRate s r c p).1 =
        { s with songPosition := s.songPosition + (c - s.playStartedAtCtx) * s.playbackRate, playStartedAtCtx := c, lastVisualTick := p, visualTime := s.songPosition + (c - s.playStartedAtCtx) * s.playbackRate, playbackRate := r } := by
      simp [setPlaybackRate, hp, getTime_play s c hp hw, if_neg (not_le.2 h), hw]
    rw [hsel, getTime_play s c hp hw, if_neg (not_le.2 h)]
    constructor
    · simp [getTime, hp, hw, not_le.2 h]
    · intro c' hc'
      rcases le_or_lt s.duration
          (s.songPosition + (c - s.playStartedAtCtx) * s.playbackRate
            + (c' - c) * r) with h₂ | h₂
      · have hmin := min_eq_left h₂
        simp [getTime, hp, hw, ← add_assoc, h₂, hmin]
      · have hmin := min_eq_right h₂.le
        simp [getTime, hp, hw, ← add_assoc, not_le.2 h₂, hmin]

/-- Witness for C6 at a concrete playing state. -/
theorem setPlaybackRate_continuous_witness :
    (0 : ℚ) < 2 ∧
    (getTime (setPlaybackRate pmSample 2 1 1).1 1).value
      = (getTime pmSample 1).value :=
  ⟨by decide, (setPlaybackRate_continuous pmSample 2 1 1 rfl rfl (by decide)).1⟩

/-- C9: play() while already Playing is the identity: no field changes,
no notification, and every subsequent authoritative read is unaffected
by the redundant call. -/
theorem play_idempotent (s : PMState) (c p : ℚ) (hp : s.isPlaying = true) :
    (play s c p).1 = s ∧ (play s c p).2 = 0 ∧
      ∀ c', getTime (play s c p).1 c' = getTime s c' := by
  simp [play, hp]

/-- Witness for C9 at a concrete playing state. -/
theorem play_idempotent_witness :
    pmSample.isPlaying = true ∧ (play pmSample 3 4).1 = pmSample :=
  ⟨rfl, (play_idempotent pmSample 3 4 rfl).1⟩

/-- C10 counterexample: a non-playing state whose song position exceeds
its duration (reachable by shrinking the duration under the current
position) makes getVisualTime return a value strictly greater than the
duration, refuting "never returns a value greater than duration" as
stated for every state. -/
theorem getVisualTime_exceeds_duration_cex :
    pmShrunk.duration < (getVisualTime pmShrunk 0 0).value := by decide

/-- C10 amended: when the stored song position does not exceed the
duration, getVisualTime never returns more than the duration; in every
state it leaves the playing flag untouched and fires no notification;
and the stored smoothed clock is updated independently of the duration
ceiling — only the returned value is clamped. -/
theorem getVisualTime_clamped_no_transition (s : PMState) (c p : ℚ)
    (hsp : s.songPosition ≤ s.duration) :
    (getVisualTime s c p).value ≤ s.duration ∧
    (getVisualTime s c p).state.isPlaying = s.isPlaying ∧
    (getVisualTime s c p).notifs = 0 ∧
    ∀ d', ((getVisualTime { s with duration := d' } c p).state).visualTime
            = ((getVisualTime s c p).state).visualTime := by
  by_cases hp : s.isPlaying
  · by_cases hw : s.hwPresent
    · refine ⟨?_, ?_, ?_, ?_⟩ <;>
        simp only [getVisualTime, hp, hw, Bool.not_true, Bool.false_or] <;>
        try simp
      · split_ifs with h₁ h₂ <;> simp_all <;> linarith
      · split_ifs <;> rfl
      · split_ifs <;> rfl
      · intro d'
        split_ifs <;> rfl
    · have hw' : s.hwPresent = false := by simpa using hw
      simp [getVisualTime, hw', hsp]
  · have hp' : s.isPlaying = false := by simpa using hp
    simp [getVisualTime, hp', hsp]

/-- Witness for C10's amended theorem at a concrete playing state. -/
theorem getVisualTime_clamped_witness :
    pmSample.songPosition ≤ pmSample.duration ∧
    (getVisualTime pmSample 1 1).value ≤ pmSample.duration :=
  ⟨by decide, (getVisualTime_clamped_no_transition pmSample 1 1 (by decide)).1⟩

/-- C5: silence() leaves the dedup set unchanged while ramping the
master gain to zero over 20 ms and issuing the engine stop; stopAll()
is exactly that same silencing followed by clearing the dedup set; and
neither call touches any other scheduler field (volume, loaded flag,
soundfont presence). -/
theorem silence_keeps_dedup_stopAll_clears (s : SynthState) (c : ℚ) :
    (silence s c).scheduled = s.scheduled ∧
    stopAll s c = { silence s c with scheduled := [] } ∧
    (silence s c).gainValue = 0 ∧
    (silence s c).gainRampEnd = c + 1/50 ∧
    (stopAll s c).gainValue = 0 ∧
    (stopAll s c).gainRampEnd = c + 1/50 ∧
    (stopAll s c).scheduled = [] ∧
    (stopAll s c).stopsSent = (silence s c).stopsSent ∧
    (silence s c).volume = s.volume ∧ (silence s c).loaded = s.loaded ∧
    (silence s c).sf = s.sf ∧
    (stopAll s c).volume = s.volume ∧ (stopAll s c).loaded = s.loaded ∧
    (stopAll s c).sf = s.sf :=
  ⟨rfl, rfl, rfl, rfl, rfl, rfl, rfl, rfl, rfl, rfl, rfl, rfl, rfl, rfl⟩

/-- The scheduling loop triggers only ids absent from the incoming dedup
set, never twice within one run, records every triggered id in the
outgoing set, and only grows the set. -/
theorem schedLoop_spec (a b r c : ℚ) (muted : List ℤ) :
    ∀ (rest : List NoteEvent) (ded : List String),
      (∀ x ∈ ded, x ∈ (schedLoop a b r c muted rest ded).2.1) ∧
      ((schedLoop a b r c muted rest ded).1.map TriggerEvent.id).Nodup ∧
      ∀ e ∈ (schedLoop a b r c muted rest ded).1,
        e.id ∉ ded ∧ e.id ∈ (schedLoop a b r c muted rest ded).2.1 := by
  intro rest
  induction rest with
  | nil => intro ded; simp [schedLoop]
  | cons note more ih =>
    intro ded
    simp only [schedLoop]
    split_ifs with h1 h2 h3 h4 h5
    · simp
    · exact ih ded
    · exact ih ded
    · exact ih ded
    · exact ih ded
    · obtain ⟨ihmono, ihnd, ihmem⟩ := ih (note.id :: ded)
      refine ⟨fun x hx => ihmono x (List.mem_cons_of_mem _ hx), ?_, ?_⟩
      · simp only [List.map_cons, List.nodup_cons]
        refine ⟨fun hmem => ?_, ihnd⟩
        rcases List.mem_map.1 hmem with ⟨e, he, heq⟩
        exact (ihmem e he).1 (heq ▸ List.mem_cons_self _ _)
      · intro e he
        rcases List.mem_cons.1 he with rfl | he'
        · exact ⟨h3, ihmono note.id (List.mem_cons_self _ _)⟩
        · exact ⟨fun hd => (ihmem e he').1 (List.mem_cons_of_mem _ hd),
                 (ihmem e he').2⟩

/-- One scheduleNotes call: its triggers carry pairwise-distinct ids,
each absent from the incoming dedup set and recorded in the outgoing
one, and the dedup set only grows. -/
theorem scheduleNotes_spec (s : SynthState) (notes : List NoteEvent)
    (a b r c : ℚ) (m : List ℤ) :
    ((scheduleNotes s notes a b r c m).triggers.map TriggerEvent.id).Nodup ∧
    (∀ e ∈ (scheduleNotes s notes a b r c m).triggers,
      e.id ∉ s.scheduled ∧
        e.id ∈ (scheduleNotes s notes a b r c m).state.scheduled) ∧
    ∀ x ∈ s.scheduled, x ∈ (scheduleNotes s notes a b r c m).state.scheduled := by
  unfold scheduleNotes
  split_ifs with hg
  · simp
  · obtain ⟨hm, hnd, hmem⟩ :=
      schedLoop_spec a b r c m (notes.drop (lowerBound notes b)) s.scheduled
    exact ⟨hnd, fun e he => (hmem e he), hm⟩

/-- C2: across two consecutive scheduleNotes calls — any windows,
overlapping or not — with no dedup reset in between, no note id is
handed to the sample engine's trigger more than once in total. -/
theorem scheduleNotes_at_most_once (s : SynthState) (n₁ n₂ : List NoteEvent)
    (a₁ b₁ r₁ c₁ a₂ b₂ r₂ c₂ : ℚ) (m₁ m₂ : List ℤ) :
    (((scheduleNotes s n₁ a₁ b₁ r₁ c₁ m₁).triggers ++
      (scheduleNotes (scheduleNotes s n₁ a₁ b₁ r₁ c₁ m₁).state
        n₂ a₂ b₂ r₂ c₂ m₂).triggers).map TriggerEvent.id).Nodup := by
  obtain ⟨hnd₁, hmem₁, _⟩ := scheduleNotes_spec s n₁ a₁ b₁ r₁ c₁ m₁
  obtain ⟨hnd₂, hmem₂, _⟩ :=
    scheduleNotes_spec (scheduleNotes s n₁ a₁ b₁ r₁ c₁ m₁).state n₂ a₂ b₂ r₂ c₂ m₂
  rw [List.map_append, List.nodup_append]
  refine ⟨hnd₁, hnd₂, fun x hx₁ hx₂ => ?_⟩
  rcases List.mem_map.1 hx₁ with ⟨e₁, he₁, rfl⟩
  rcases List.mem_map.1 hx₂ with ⟨e₂, he₂, heq⟩
  exact (hmem₂ e₂ he₂).1 (heq ▸ (hmem₁ e₁ he₁).2)

/-- Acquire never changes the pool's size. -/
theorem acquire_poolSize (s : PoolState) : (acquire s).2.poolSize = s.poolSize := by
  unfold acquire; split_ifs <;> rfl

/-- The cursor after an acquire, as a function of the old cursor. -/
theorem acquire_activeCount (s : PoolState) :
    (acquire s).2.activeCount =
      if s.poolSize ≤ s.activeCount then s.activeCount else s.activeCount + 1 := by
  unfold acquire; split_ifs <;> rfl

/-- Running pool calls never changes the pool's size. -/
theorem runPool_poolSize (ops : List PoolOp) :
    ∀ s : PoolState, (runPool s ops).poolSize = s.poolSize := by
  induction ops with
  | nil => intro s; rfl
  | cons op rest ih =>
    intro s
    cases op with
    | acq => rw [runPool, ih, acquire_poolSize]
    | rel => rw [runPool, ih]; rfl

/-- Running pool calls preserves the capacity invariant. -/
theorem runPool_active_le (ops : List PoolOp) :
    ∀ s : PoolState, s.activeCount ≤ s.poolSize →
      (runPool s ops).activeCount ≤ (runPool s ops).poolSize := by
  induction ops with
  | nil => intro s h; exact h
  | cons op rest ih =>
    intro s h
    cases op with
    | acq =>
      refine ih _ ?_
      rw [acquire_activeCount, acquire_poolSize]
      split_ifs with hfull
      · exact h
      · omega
    | rel => exact ih _ (Nat.zero_le _)

/-- Acquire results depend only on the cursor and the capacity, not on
the visibility flags. -/
theorem acquireResults_congr (k : ℕ) :
    ∀ s t : PoolState, s.poolSize = t.poolSize →
      s.activeCount = t.activeCount →
      acquireResults s k = acquireResults t k := by
  induction k with
  | zero => intro s t _ _; rfl
  | succ k ih =>
    intro s t hsz hac
    rw [acquireResults, acquireResults]
    have hhead : (acquire s).1 = (acquire t).1 := by
      unfold acquire; rw [hsz, hac]; split_ifs <;> simp [hac]
    rw [hhead, ih (acquire s).2 (acquire t).2
      (by rw [acquire_poolSize, acquire_poolSize, hsz])
      (by rw [acquire_activeCount, acquire_activeCount, hsz, hac])]

/-- Every slot an acquire hands out is one of the pre-allocated
indices. -/
theorem acquireResults_lt (k : ℕ) :
    ∀ (s : PoolState) (i : ℕ), some i ∈ acquireResults s k → i < s.poolSize := by
  induction k with
  | zero => intro s i h; simp [acquireResults] at h
  | succ k ih =>
    intro s i h
    rcases List.mem_cons.1 h with hhead | htail
    · revert hhead
      unfold acquire
      split_ifs with hfull
      · intro hh; cases hh
      · intro hh
        cases hh
        omega
    · have := ih (acquire s).2 i htail
      rwa [acquire_poolSize] at this

/-- C8: over every call sequence on a pool of capacity n, the active
count never exceeds n; once n slots are active an acquire returns none;
releaseAll resets the active count to 0; and acquires after a
releaseAll hand out exactly the slots a fresh pool would, in the same
order — always pre-allocated indices below n, never new objects. -/
theorem pool_invariants (n k : ℕ) (ops : List PoolOp) :
    (runPool (initPool n) ops).activeCount ≤ n ∧
    ((runPool (initPool n) ops).activeCount = n →
      (acquire (runPool (initPool n) ops)).1 = none) ∧
    (releaseAll (runPool (initPool n) ops)).activeCount = 0 ∧
    acquireResults (releaseAll (runPool (initPool n) ops)) k
      = acquireResults (initPool n) k ∧
    ∀ i, some i ∈ acquireResults (releaseAll (runPool (initPool n) ops)) k →
      i < n := by
  have hsz : (runPool (initPool n) ops).poolSize = n := runPool_poolSize ops _
  have hle : (runPool (initPool n) ops).activeCount ≤ n := by
    have := runPool_active_le ops (initPool n) (Nat.zero_le _)
    rwa [hsz] at this
  refine ⟨hle, ?_, rfl, ?_, ?_⟩
  · intro hfull
    unfold acquire
    rw [if_pos (by rw [hsz, hfull])]
  · exact acquireResults_congr k _ _ (by rw [releaseAll, hsz]; rfl) rfl
  · intro i h
    have := acquireResults_lt k _ i h
    rwa [show (releaseAll (runPool (initPool n) ops)).poolSize = n from hsz] at this

/-- Splitting a contiguous index range. -/
theorem range'_split (s m n : ℕ) :
    List.range' s (m + n) = List.range' s m ++ List.range' (s + m) n := by
  have h := List.range'_append s m n 1
  rw [one_mul] at h
  rw [Nat.add_comm m n]
  exact h.symm

/-- The ids of one flattened track are the counter values it consumed,
in order. -/
theorem flattenTrack_ids (tr : List DecodedNote) :
    ∀ (c : ℕ) (t : ℤ), (flattenTrack c t tr).map NoteEvent.id
      = (List.range' c tr.length).map encId := by
  induction tr with
  | nil => intro c t; rfl
  | cons d rest ih =>
    intro c t
    rw [flattenTrack, List.map_cons, ih (c + 1) t, List.length_cons,
      List.range'_succ, List.map_cons]
    rfl

/-- The ids of the whole flattened timeline are the consecutive counter
values starting at c. -/
theorem flattenTracks_ids (trs : List (List DecodedNote)) :
    ∀ (c : ℕ) (t : ℤ), (flattenTracks c t trs).map NoteEvent.id
      = (List.range' c (trs.map List.length).sum).map encId := by
  induction trs with
  | nil => intro c t; rfl
  | cons tr rest ih =>
    intro c t
    rw [flattenTracks, List.map_append, flattenTrack_ids tr c t,
      ih (c + tr.length) (t + 1), List.map_cons, List.sum_cons,
      range'_split c tr.length (rest.map List.length).sum, List.map_append]

/-- Every note of a flattened track is built by mkNote from one of its
decoded notes. -/
theorem mem_flattenTrack {n : NoteEvent} (tr : List DecodedNote) :
    ∀ (c : ℕ) (t : ℤ), n ∈ flattenTrack c t tr →
      ∃ d ∈ tr, ∃ c', n = mkNote c' t d := by
  induction tr with
  | nil => intro c t h; simp [flattenTrack] at h
  | cons d rest ih =>
    intro c t h
    rcases List.mem_cons.1 h with rfl | h'
    · exact ⟨d, List.mem_cons_self _ _, c, rfl⟩
    · rcases ih (c + 1) t h' with ⟨d', hd', c', rfl⟩
      exact ⟨d', List.mem_cons_of_mem _ hd', c', rfl⟩

/-- Every note of the flattened timeline is built by mkNote from a
decoded note of one of the tracks. -/
theorem mem_flattenTracks {n : NoteEvent} (trs : List (List DecodedNote)) :
    ∀ (c : ℕ) (t : ℤ), n ∈ flattenTracks c t trs →
      ∃ tr ∈ trs, ∃ d ∈ tr, ∃ c' t', n = mkNote c' t' d := by
  induction trs with
  | nil => intro c t h; simp [flattenTracks] at h
  | cons tr rest ih =>
    intro c t h
    rcases List.mem_append.1 h with h' | h'
    · rcases mem_flattenTrack tr c t h' with ⟨d, hd, c', rfl⟩
      exact ⟨tr, List.mem_cons_self _ _, d, hd, c', t, rfl⟩
    · rcases ih (c + tr.length) (t + 1) h' with ⟨tr', htr', d, hd, c', t', rfl⟩
      exact ⟨tr', List.mem_cons_of_mem _ htr', d, hd, c', t', rfl⟩

/-- Left fold of max dominates the seed and every element. -/
theorem le_foldl_max (es : List ℚ) :
    ∀ e x, x ∈ e :: es → x ≤ es.foldl max e := by
  induction es with
  | nil =>
    intro e x hx
    rcases List.mem_singleton.1 hx with rfl
    exact le_refl _
  | cons b bs ih =>
    intro e x hx
    rw [List.foldl_cons]
    rcases List.mem_cons.1 hx with rfl | hx'
    · exact le_trans (le_max_left x b) (ih _ _ (List.mem_cons_self _ _))
    · rcases List.mem_cons.1 hx' with rfl | hx''
      · exact le_trans (le_max_right e x) (ih _ _ (List.mem_cons_self _ _))
      · exact ih _ x (List.mem_cons_of_mem _ hx'')

/-- Left fold of max is the seed or one of the elements. -/
theorem foldl_max_mem (es : List ℚ) : ∀ e, es.foldl max e ∈ e :: es := by
  induction es with
  | nil => intro e; simp
  | cons b bs ih =>
    intro e
    rw [List.foldl_cons]
    rcases List.mem_cons.1 (ih (max e b)) with heq | hmem
    · rcases max_choice e b with hm | hm
      · rw [heq, hm]; exact List.mem_cons_self _ _
      · rw [heq, hm]
        exact List.mem_cons_of_mem _ (List.mem_cons_self _ _)
    · exact List.mem_cons_of_mem _ (List.mem_cons_of_mem _ hmem)

/-- Rounding is monotone. -/
theorem round_le_round_of_le {x y : ℚ} (h : x ≤ y) : round x ≤ round y := by
  rw [round_eq, round_eq]
  exact Int.floor_le_floor (by linarith)

/-- C7: for every decoded multi-track input whose velocities lie in
[0, 1] (the decoder's normalized range), the parser's output note list
is sorted ascending by startTimeSec, its ids are a permutation of the
synthetic sequential ids n-0 … n-(k-1), every velocity is an integer in
[0, 127], and the reported duration is the maximum endTimeSec — bounded
above by it, attained by some note — or 0 when the list is empty. -/
theorem parseMidiFile_normalized (tracks : List (List DecodedNote))
    (hv : ∀ tr ∈ tracks, ∀ d ∈ tr, 0 ≤ d.velocity ∧ d.velocity ≤ 1) :
    List.Sorted noteLe (parseMidiFile tracks).notes ∧
    List.Perm ((parseMidiFile tracks).notes.map NoteEvent.id)
      ((List.range (parseMidiFile tracks).notes.length).map encId) ∧
    (∀ n ∈ (parseMidiFile tracks).notes, 0 ≤ n.velocity ∧ n.velocity ≤ 127) ∧
    (∀ n ∈ (parseMidiFile tracks).notes,
      n.endTimeSec ≤ (parseMidiFile tracks).durationSec) ∧
    ((parseMidiFile tracks).notes ≠ [] →
      ∃ n ∈ (parseMidiFile tracks).notes,
        (parseMidiFile tracks).durationSec = n.endTimeSec) ∧
    ((parseMidiFile tracks).notes = [] →
      (parseMidiFile tracks).durationSec = 0) := by
  have hperm := List.perm_insertionSort noteLe (flattenTracks 0 0 tracks)
  have hnotes : (parseMidiFile tracks).notes
      = List.insertionSort noteLe (flattenTracks 0 0 tracks) := rfl
  have hids := flattenTracks_ids tracks 0 0
  have hlen : (parseMidiFile tracks).notes.length
      = (tracks.map List.length).sum := by
    rw [hnotes, hperm.length_eq]
    have h := congrArg List.length hids
    simpa using h
  refine ⟨List.sorted_insertionSort noteLe _, ?_, ?_, ?_, ?_, ?_⟩
  · have hmap : List.Perm ((parseMidiFile tracks).notes.map NoteEvent.id)
        ((flattenTracks 0 0 tracks).map NoteEvent.id) := hperm.map _
    rw [hids] at hmap
    rw [hlen, List.range_eq_range']
    exact hmap
  · intro n hn
    have hn' : n ∈ flattenTracks 0 0 tracks := hperm.mem_iff.1 hn
    rcases mem_flattenTracks tracks 0 0 hn' with ⟨tr, htr, d, hd, c', t', rfl⟩
    obtain ⟨h0, h1⟩ := hv tr htr d hd
    constructor
    · have : round (0 : ℚ) ≤ round (d.velocity * 127) :=
        round_le_round_of_le (by nlinarith)
      simpa [mkNote, round_zero] using this
    · have h127 : round ((127 : ℚ)) = (127 : ℤ) := by
        rw [round_eq]; norm_num
      have : round (d.velocity * 127) ≤ round ((127 : ℚ)) :=
        round_le_round_of_le (by nlinarith)
      rw [h127] at this
      simpa [mkNote] using this
  · intro n hn
    rw [hnotes] at hn
    rcases hL : List.insertionSort noteLe (flattenTracks 0 0 tracks) with _ | ⟨x, xs⟩
    · rw [hL] at hn; cases hn
    · have hdur : (parseMidiFile tracks).durationSec
          = (xs.map NoteEvent.endTimeSec).foldl max x.endTimeSec := by
        show maxEnd (List.insertionSort noteLe (flattenTracks 0 0 tracks)) = _
        rw [hL]; rfl
      rw [hdur]
      rw [hL] at hn
      have : n.endTimeSec ∈ x.endTimeSec :: xs.map NoteEvent.endTimeSec := by
        rcases List.mem_cons.1 hn with rfl | hn'
        · exact List.mem_cons_self _ _
        · exact List.mem_cons_of_mem _ (List.mem_map_of_mem _ hn')
      exact le_foldl_max _ _ _ this
  · intro hne
    rcases hL : List.insertionSort noteLe (flattenTracks 0 0 tracks) with _ | ⟨x, xs⟩
    · rw [hnotes, hL] at hne; exact absurd rfl hne
    · have hdur : (parseMidiFile tracks).durationSec
          = (xs.map NoteEvent.endTimeSec).foldl max x.endTimeSec := by
        show maxEnd (List.insertionSort noteLe (flattenTracks 0 0 tracks)) = _
        rw [hL]; rfl
      have hmem := foldl_max_mem (xs.map NoteEvent.endTimeSec) x.endTimeSec
      have hmem' : (xs.map NoteEvent.endTimeSec).foldl max x.endTimeSec
          ∈ (x :: xs).map NoteEvent.endTimeSec := by
        simpa using hmem
      rcases List.mem_map.1 hmem' with ⟨n, hn, heq⟩
      refine ⟨n, ?_, by rw [hdur, heq]⟩
      rw [hnotes, hL]
      exact hn
  · intro hempty
    rw [hnotes] at hempty
    show maxEnd (List.insertionSort noteLe (flattenTracks 0 0 tracks)) = 0
    rw [hempty]; rfl

/-- Witness for C7 on a concrete two-track input. -/
theorem parseMidiFile_normalized_witness :
    (∀ tr ∈ ([[⟨0, 1, 60, 1⟩], [⟨2, 1, 62, 0⟩]] : List (List DecodedNote)),
      ∀ d ∈ tr, 0 ≤ d.velocity ∧ d.velocity ≤ 1) ∧
    List.Sorted noteLe
      (parseMidiFile [[⟨0, 1, 60, 1⟩], [⟨2, 1, 62, 0⟩]]).notes :=
  ⟨by decide, (parseMidiFile_normalized _ (by decide)).1⟩

/-- Indexed monotonicity of a start-sorted list. -/
theorem sorted_getD_le {l : List NoteEvent} (hs : List.Sorted noteLe l)
    {i j : ℕ} (hij : i ≤ j) (hj : j < l.length) :
    (l.getD i default).startTimeSec ≤ (l.getD j default).startTimeSec := by
  rcases eq_or_lt_of_le hij with rfl | hlt
  · exact le_refl _
  · have hi : i < l.length := lt_trans hlt hj
    rw [List.getD_eq_getElem l default hi, List.getD_eq_getElem l default hj]
    exact List.pairwise_iff_getElem.1 hs i j hi hj hlt

/-- The binary-search loop never leaves the list and everything strictly
before the returned index starts before the searched time. -/
theorem lbGo_spec {notes : List NoteEvent} {time : ℚ}
    (hs : List.Sorted noteLe notes) :
    ∀ (fuel lo hi : ℕ), lo ≤ hi → hi ≤ notes.length → hi - lo ≤ fuel →
      (∀ j < lo, (notes.getD j default).startTimeSec < time) →
      lbGo notes time fuel lo hi ≤ notes.length ∧
      ∀ j < lbGo notes time fuel lo hi,
        (notes.getD j default).startTimeSec < time := by
  intro fuel
  induction fuel with
  | zero =>
    intro lo hi hlh hhl _ hinv
    exact ⟨le_trans hlh hhl, hinv⟩
  | succ fuel ih =>
    intro lo hi hlh hhl hfl hinv
    simp only [lbGo]
    split_ifs with h1 h2
    · refine ih ((lo + hi) / 2 + 1) hi (by omega) hhl (by omega) ?_
      intro j hj
      rcases lt_or_ge j lo with hjlo | hjge
      · exact hinv j hjlo
      · exact lt_of_le_of_lt
          (sorted_getD_le hs (by omega) (by omega)) h2
    · exact ih lo ((lo + hi) / 2) (by omega) (by omega) (by omega) hinv
    · exact ⟨le_trans hlh hhl, hinv⟩

/-- Membership in a prefix, reflected to an index. -/
theorem mem_take_getD {l : List NoteEvent} :
    ∀ {k : ℕ} {n : NoteEvent}, n ∈ l.take k →
      ∃ i, i < k ∧ i < l.length ∧ l.getD i default = n := by
  induction l with
  | nil => intro k n h; simp at h
  | cons a t ih =>
    intro k n h
    cases k with
    | zero => simp at h
    | succ k =>
      rw [List.take_succ_cons] at h
      rcases List.mem_cons.1 h with rfl | h'
      · exact ⟨0, Nat.succ_pos _, by simp, rfl⟩
      · rcases ih h' with ⟨i, hik, hil, hval⟩
        exact ⟨i + 1, by omega, by simpa using Nat.succ_lt_succ hil,
               by simpa using hval⟩

/-- On a start-sorted list, the early-breaking forward scan computes
exactly the window filter. -/
theorem renderScan_eq_filter (wS wE : ℚ) :
    ∀ l : List NoteEvent, List.Sorted noteLe l →
      renderScan wS wE l
        = l.filter fun n => decide (n.startTimeSec ≤ wE ∧ wS ≤ n.endTimeSec) := by
  intro l
  induction l with
  | nil => intro _; rfl
  | cons note rest ih =>
    intro hs
    obtain ⟨hhead, htail⟩ := List.sorted_cons.1 hs
    rw [renderScan]
    split_ifs with h1 h2
    · symm
      rw [List.filter_eq_nil_iff]
      intro a ha
      simp only [decide_eq_true_eq, not_and, not_le]
      intro hstart
      rcases List.mem_cons.1 ha with rfl | ha'
      · exact absurd hstart (not_le.2 h1)
      · exact absurd (le_trans (hhead a ha') hstart) (not_le.2 h1)
    · rw [ih htail, List.filter_cons_of_neg]
      simp only [decide_eq_true_eq, not_and, not_le]
      exact fun _ => h2
    · rw [ih htail, List.filter_cons_of_pos]
      simp only [decide_eq_true_eq]
      exact ⟨not_lt.1 h1, not_lt.1 h2⟩

/-- C1 counterexample: one 20-second note, query time 15, lookahead 1
(canvas 200 px at 200 px/s).  The brute-force set contains the note
(start 0 ≤ 16 and end 20 ≥ 14.5) but the render pass's binary search
starts at windowStart - 10 = 4.5 and skips it, so the two sets
differ — refuting the claim as stated for every sorted list. -/
theorem renderSelect_misses_long_note :
    List.Sorted noteLe [longNote] ∧
    renderSelect [longNote] 15 200 200 ≠ bruteVisible [longNote] 15 200 200 := by
  constructor
  · simp
  · have h1 : renderSelect [longNote] 15 200 200 = [] := by
      have hlb : lowerBound [longNote] (max 0 ((15 : ℚ) - 1/2 - 10)) = 1 := by
        norm_num [lowerBound, lbGo, longNote]
      rw [renderSelect, hlb]
      rfl
    have h2 : bruteVisible [longNote] 15 200 200 = [longNote] := by
      rw [bruteVisible, List.filter_cons_of_pos]
      · rfl
      · simp only [decide_eq_true_eq, longNote]
        norm_num
    rw [h1, h2]
    simp

/-- C1 amended: for a start-sorted note list whose notes start at
nonnegative times and are each held at most 10 seconds (the renderer's
look-back), the window selection of the render pass — before the mute,
pitch-range, off-screen and pool-exhaustion filters — equals the
brute-force set of notes with start ≤ T + L and end ≥ T - 0.5.  A note
held longer than 10 s can be culled while still overlapping the window,
as the counterexample shows. -/
theorem renderSelect_eq_bruteVisible (notes : List NoteEvent)
    (time canvasH pps : ℚ) (hs : List.Sorted noteLe notes)
    (h0 : ∀ n ∈ notes, 0 ≤ n.startTimeSec)
    (h10 : ∀ n ∈ notes, n.endTimeSec ≤ n.startTimeSec + 10) :
    renderSelect notes time canvasH pps = bruteVisible notes time canvasH pps := by
  have hvac : ∀ j < 0,
      (notes.getD j default).startTimeSec < max 0 (time - 1/2 - 10) :=
    fun j hj => absurd hj (Nat.not_lt_zero j)
  obtain ⟨hrlen, hrlt⟩ := lbGo_spec hs notes.length 0 notes.length
    (Nat.zero_le _) (le_refl _) (by omega) hvac
  have hrlt' : ∀ j < lowerBound notes (max 0 (time - 1/2 - 10)),
      (notes.getD j default).startTimeSec < max 0 (time - 1/2 - 10) := hrlt
  have hsortdrop : List.Sorted noteLe
      (notes.drop (lowerBound notes (max 0 (time - 1/2 - 10)))) :=
    List.Pairwise.sublist (List.drop_sublist _ _) hs
  have hunf : renderSelect notes time canvasH pps
      = renderScan (time - 1/2) (time + canvasH / pps)
          (notes.drop (lowerBound notes (max 0 (time - 1/2 - 10)))) := rfl
  rw [hunf, renderScan_eq_filter _ _ _ hsortdrop]
  show _ = notes.filter
    fun n => decide (n.startTimeSec ≤ time + canvasH / pps
      ∧ time - 1/2 ≤ n.endTimeSec)
  conv_rhs =>
    rw [← List.take_append_drop
      (lowerBound notes (max 0 (time - 1/2 - 10))) notes]
  rw [List.filter_append]
  have htake : (notes.take (lowerBound notes (max 0 (time - 1/2 - 10)))).filter
      (fun n => decide (n.startTimeSec ≤ time + canvasH / pps
        ∧ time - 1/2 ≤ n.endTimeSec)) = [] := by
    rw [List.filter_eq_nil_iff]
    intro a ha
    rcases mem_take_getD ha with ⟨i, hik, hil, rfl⟩
    have hlt := hrlt' i hik
    have hmem : notes.getD i default ∈ notes := List.take_subset _ _ ha
    simp only [decide_eq_true_eq, not_and, not_le]
    intro _
    rcases le_or_lt (time - 1/2 - 10) 0 with hcase | hcase
    · rw [max_eq_left hcase] at hlt
      exact absurd (h0 _ hmem) (not_le.2 hlt)
    · rw [max_eq_right hcase.le] at hlt
      have hdur := h10 _ hmem
      linarith
  rw [htake, List.nil_append]

/-- Witness for C1's amended theorem on a concrete short note. -/
theorem renderSelect_eq_bruteVisible_witness :
    List.Sorted noteLe [(⟨encId 0, 60, 0, 1, 1, 100, 0⟩ : NoteEvent)] ∧
    renderSelect [(⟨encId 0, 60, 0, 1, 1, 100, 0⟩ : NoteEvent)] 0 200 200
      = bruteVisible [(⟨encId 0, 60, 0, 1, 1, 100, 0⟩ : NoteEvent)] 0 200 200 :=
  ⟨by simp, renderSelect_eq_bruteVisible _ 0 200 200
    (by simp) (by norm_num) (by norm_num)⟩

end SynthUI
